import Mathlib

/-!
Verification of the deterministic branch-name generation pipeline of the
jira-to-branch tool.  Strings are modelled as lists of characters; every
definition mirrors the corresponding TypeScript function in `src/branch.ts`,
`src/pull_request.ts` or `src/ai-service.ts`.  JavaScript string operations
(`split`, `join`, `replace`, `trim`, `substring`, stable `Array.sort`) are
modelled by executable Lean functions with the same observable behaviour.
-/

namespace JiraToBranch

/-- Strings are modelled as lists of characters. -/
abbrev Str := List Char

/-- Whitespace characters: the ASCII part of what `\s` matches in the
JavaScript regular expressions of the source. -/
def isWs (c : Char) : Bool :=
  c == ' ' || c == '\t' || c == '\n' || c == '\r' || c == '\x0b' || c == '\x0c'

/-- Word characters, modelling `\w` ( `[A-Za-z0-9_]` ). -/
def isWordChar (c : Char) : Bool :=
  c.isAlpha || c.isDigit || c == '_'

/-- The character set `[A-Za-z0-9\-_/]` allowed in final branch slugs. -/
def goodChar (c : Char) : Bool :=
  c.isAlpha || c.isDigit || c == '-' || c == '_' || c == '/'

/-- `String.prototype.toLowerCase` (ASCII model). -/
def lowerStr (s : Str) : Str := s.map Char.toLower

/-- JavaScript `s.split(sep)` for a one-character separator: splits at every
occurrence of the separator, keeping empty pieces; the empty string yields
`[""]`. -/
def splitChar (c : Char) : Str → List Str
  | [] => [[]]
  | a :: rest =>
    match splitChar c rest with
    | [] => [[]]
    | h :: t => if a = c then [] :: h :: t else (a :: h) :: t

/-- JavaScript `parts.join(sep)`. -/
def joinWith (sep : Str) : List Str → Str
  | [] => []
  | [x] => x
  | x :: y :: rest => x ++ sep ++ joinWith sep (y :: rest)

/-- JavaScript `s.split(/\s+/)`: maximal whitespace runs separate the pieces,
so an empty piece can appear only at either end; the empty string yields
`[""]`. -/
def jsSplitWs : Str → List Str
  | [] => [[]]
  | a :: rest =>
    if isWs a then
      match rest with
      | [] => [] :: jsSplitWs rest
      | b :: _ => if isWs b then jsSplitWs rest else [] :: jsSplitWs rest
    else
      match jsSplitWs rest with
      | [] => [[a]]
      | h :: t => (a :: h) :: t

/-- The maximal runs of non-whitespace characters, in order: splitting on
whitespace with empty pieces discarded. -/
def wordsWs : Str → List Str
  | [] => []
  | a :: rest =>
    if isWs a then wordsWs rest
    else
      match rest with
      | [] => [[a]]
      | b :: _ =>
        if isWs b then [a] :: wordsWs rest
        else
          match wordsWs rest with
          | [] => [[a]]
          | h :: t => (a :: h) :: t

/-- JavaScript `s.replace(/p+/g, rep)` for a character class `p`: every
maximal run of characters satisfying `p` becomes the single character
`rep`. -/
def collapseRuns (p : Char → Bool) (rep : Char) : Str → Str
  | [] => []
  | a :: rest =>
    if p a then
      match rest with
      | [] => [rep]
      | b :: _ =>
        if p b then collapseRuns p rep rest else rep :: collapseRuns p rep rest
    else a :: collapseRuns p rep rest

/-- JavaScript `s.replace(/^p+|p+$/g, '')`: remove the leading and trailing
runs of characters satisfying `p`. -/
def stripEdges (p : Char → Bool) (s : Str) : Str :=
  ((s.dropWhile p).reverse.dropWhile p).reverse

/-- JavaScript `s.trim()` (ASCII whitespace model). -/
def jsTrim (s : Str) : Str := stripEdges isWs s

/-- Helper for `dedupFirst`: keep the elements not seen before, first
occurrences first. -/
def dedupFirstAux (seen : List Str) : List Str → List Str
  | [] => []
  | a :: rest =>
    if a ∈ seen then dedupFirstAux seen rest
    else a :: dedupFirstAux (a :: seen) rest

/-- JavaScript `Array.from(new Set(xs))`: the distinct elements in order of
first occurrence. -/
def dedupFirst (l : List Str) : List Str := dedupFirstAux [] l

/-- `BranchNameGenerator.STOP_WORDS` from `src/branch.ts`. -/
def STOP_WORDS : List Str :=
  ["the", "is", "at", "which", "on", "and", "a", "to", "are", "as", "was",
   "will", "be", "have", "has", "had", "by", "for", "of", "with", "from",
   "an", "but", "or", "if", "this", "that", "it", "in", "we", "you", "they",
   "can", "should", "would", "could", "may", "might", "must", "shall"].map String.data

/-- `BranchNameGenerator.TECH_KEYWORDS` from `src/branch.ts`. -/
def TECH_KEYWORDS : List Str :=
  ["api", "endpoint", "service", "component", "module", "function", "method",
   "database", "db", "migration", "schema", "table", "model", "controller", "view",
   "auth", "authentication", "authorization", "security", "validation", "error",
   "bug", "fix", "feature", "enhancement", "improvement", "optimization",
   "integration", "config", "configuration", "setup", "deployment", "testing",
   "refactor", "cleanup", "update", "upgrade", "install", "remove", "delete",
   "user", "admin", "dashboard", "login", "logout", "register", "profile",
   "notification", "email", "payment", "order", "product", "search",
   "filter", "sort", "pagination", "export", "import", "upload", "download",
   "cache", "session", "token", "webhook", "response", "request"].map String.data

/-- `BranchNameGenerator.ACTION_WORDS` from `src/branch.ts`. -/
def ACTION_WORDS : List Str :=
  ["add", "create", "build", "implement", "develop", "generate", "setup",
   "remove", "delete", "clean", "clear", "reset", "purge",
   "update", "modify", "change", "edit", "adjust", "configure", "set",
   "fix", "resolve", "solve", "handle", "debug", "patch",
   "improve", "enhance", "optimize", "refactor", "restructure", "streamline",
   "integrate", "connect", "link", "sync", "merge", "combine",
   "validate", "verify", "check", "ensure", "confirm", "test",
   "enable", "disable", "toggle", "activate", "deactivate", "switch"].map String.data

/-- The "too generic" word list inside `rankTokensByRelevance`. -/
def commonWords : List Str :=
  ["user", "system", "page", "form", "button", "field"].map String.data

/-- The character replacement `.replace(/[^\w\s-]/g, ' ')` in `tokenizeText`. -/
def replaceNonTokenChars (s : Str) : Str :=
  s.map fun c => if isWordChar c || isWs c || c == '-' then c else ' '

/-- The token filter of `tokenizeText`: length above 2, not a stop word, not
a pure number ( `/^\d+$/` ). -/
def keepToken (t : Str) : Bool :=
  decide (2 < t.length) && !(decide (t ∈ STOP_WORDS)) && !(!t.isEmpty && t.all Char.isDigit)

/-- `BranchNameGenerator.tokenizeText` from `src/branch.ts`: lower-case,
replace special characters by spaces, collapse whitespace, trim, split on
whitespace, filter. -/
def tokenizeText (text : Str) : List Str :=
  (jsSplitWs (jsTrim (collapseRuns isWs ' ' (replaceNonTokenChars (lowerStr text))))).filter keepToken

/-- `BranchNameGenerator.extractActions`. -/
def extractActions (tokens : List Str) : List Str :=
  tokens.filter (fun t => decide (t ∈ ACTION_WORDS))

/-- `BranchNameGenerator.extractTechTerms`. -/
def extractTechTerms (tokens : List Str) : List Str :=
  tokens.filter (fun t => decide (t ∈ TECH_KEYWORDS))

/-- The entity filter inside `extractEntities`. -/
def entityPred (t : Str) : Bool :=
  !(decide (t ∈ ACTION_WORDS)) && !(decide (t ∈ TECH_KEYWORDS)) &&
    (decide (4 < t.length) || (String.data "ing").isSuffixOf t ||
      (String.data "tion").isSuffixOf t || (String.data "ment").isSuffixOf t)

/-- `BranchNameGenerator.extractEntities`: filtered tokens, deduplicated in
order of first occurrence. -/
def extractEntities (tokens : List Str) : List Str :=
  dedupFirst (tokens.filter entityPred)

/-- `BranchNameGenerator.determinePrimaryAction`: first action word of the
lower-cased, `/\s+/`-split summary, else the first extracted action. -/
def determinePrimaryAction (summary : Str) (actions : List Str) : Option Str :=
  match (jsSplitWs (lowerStr summary)).find? (fun w => decide (w ∈ ACTION_WORDS)) with
  | some w => some w
  | none =>
    match actions with
    | [] => none
    | a :: _ => some a

/-- The per-token score of `rankTokensByRelevance`, written as the same
sequence of conditional updates as the source. -/
def scoreToken (entities : List Str) (token : Str) : Int :=
  let s0 : Int := 1
  let s1 := if token ∈ ACTION_WORDS then s0 + 5 else s0
  let s2 := if token ∈ TECH_KEYWORDS then s1 + 4 else s1
  let s3 := if token ∈ entities then s2 + 2 else s2
  let s4 := if 6 < token.length then s3 + 1 else s3
  if token ∈ commonWords then s4 - 1 else s4

/-- One step of a stable insertion sort by descending score; an element moves
past another only when its score is strictly greater, as JavaScript's stable
`Array.sort` with comparator `(a, b) => score(b) - score(a)` behaves. -/
def insertByScore (score : Str → Int) (a : Str) : List Str → List Str
  | [] => [a]
  | b :: rest =>
    if score b ≤ score a then a :: b :: rest else b :: insertByScore score a rest

/-- Stable sort by descending score (insertion sort, which is the unique
stable sort for a fixed score, hence models the source's stable
`Array.sort`). -/
def sortByScoreDesc (score : Str → Int) : List Str → List Str
  | [] => []
  | a :: rest => insertByScore score a (sortByScoreDesc score rest)

/-- `BranchNameGenerator.rankTokensByRelevance`: distinct tokens (first
occurrence order) sorted descending by score.  Like the source, the
`actions` and `techTerms` arguments are not used (the static sets are
consulted instead). -/
def rankTokensByRelevance (tokens _actions entities _techTerms : List Str) : List Str :=
  sortByScoreDesc (scoreToken entities) (dedupFirst tokens)

/-- The analysis record built by `analyzeTicketContent`. -/
structure Analysis where
  primaryAction : Option Str
  actions : List Str
  entities : List Str
  techTerms : List Str
  rankedTokens : List Str
  originalSummary : Str

/-- `BranchNameGenerator.analyzeTicketContent`. -/
def analyzeTicketContent (summary : Str) (description : Option Str) : Analysis :=
  let combinedText := summary ++ ' ' :: (description.getD [])
  let tokens := tokenizeText combinedText
  let actions := extractActions tokens
  let entities := extractEntities tokens
  let techTerms := extractTechTerms tokens
  { primaryAction := determinePrimaryAction summary actions
    actions := actions
    entities := entities
    techTerms := techTerms
    rankedTokens := rankTokensByRelevance tokens actions entities techTerms
    originalSummary := summary }

/-- The ranked-token loop of `generateConciseName`: skip used tokens, append,
stop after appending once 4 parts are reached or the hyphen-joined name
reaches 30 characters. -/
def addTokensLoop : List Str → List Str → List Str
  | parts, [] => parts
  | parts, tok :: rest =>
    if tok ∈ parts then addTokensLoop parts rest
    else if 4 ≤ (parts ++ [tok]).length ∨ 30 ≤ (joinWith ['-'] (parts ++ [tok])).length then
      parts ++ [tok]
    else addTokensLoop (parts ++ [tok]) rest

/-- The character replacement `.replace(/[^\w\s]/g, ' ')` used by the
backfill step (note: unlike `tokenizeText`, hyphens are replaced too). -/
def backfillSummaryChars (s : Str) : Str :=
  s.map fun c => if isWordChar c || isWs c then c else ' '

/-- The backfill step of `generateConciseName`: up to 3 summary words of
length above 3 that are neither stop words nor already used. -/
def backfillWords (summary : Str) (used : List Str) : List Str :=
  ((jsSplitWs (backfillSummaryChars (lowerStr summary))).filter
    (fun w => decide (3 < w.length) && !(decide (w ∈ STOP_WORDS)) && !(decide (w ∈ used)))).take 3

/-- The initial name-parts list of `generateConciseName`: the primary action
when present. -/
def initialParts (analysis : Analysis) : List Str :=
  match analysis.primaryAction with
  | some a => [a]
  | none => []

/-- The name-parts list after the ranked-token loop. -/
def loopParts (analysis : Analysis) : List Str :=
  addTokensLoop (initialParts analysis) analysis.rankedTokens

/-- The name-parts list of `generateConciseName` after the ranked-token loop
and the backfill step. -/
def assembledParts (analysis : Analysis) : List Str :=
  if (loopParts analysis).length < 2 then
    loopParts analysis ++ backfillWords analysis.originalSummary (loopParts analysis)
  else loopParts analysis

/-- The joined and cleaned-up name of `generateConciseName`: hyphen-join,
collapse repeated hyphens, strip leading and trailing hyphens, truncate to
30 characters. -/
def cleanedName (analysis : Analysis) : Str :=
  (stripEdges (fun c => c == '-')
    (collapseRuns (fun c => c == '-') '-' (joinWith ['-'] (assembledParts analysis)))).take 30

/-- `BranchNameGenerator.generateConciseName`: assemble name parts, backfill
when fewer than 2, join with hyphens, collapse and strip hyphens, truncate
to 30 characters, fall back to the literal `update`. -/
def generateConciseName (analysis : Analysis) : Str :=
  if (cleanedName analysis).isEmpty then String.data "update" else cleanedName analysis

/-- `branchName.split('/')` inside `ensureValidLength`. -/
def evlParts (s : Str) : List Str := splitChar '/' s

/-- `parts[parts.length - 1]` inside `ensureValidLength`. -/
def evlActual (s : Str) : Str := (evlParts s).getLastD []

/-- The reconstructed slash-terminated front part inside `ensureValidLength`
( `parts.slice(0, -1).join('/') + '/'` when there are several parts, empty
otherwise). -/
def evlPre (s : Str) : Str :=
  if 1 < (evlParts s).length then joinWith ['/'] (evlParts s).dropLast ++ ['/'] else []

/-- `actualBranch.split('-')` inside `ensureValidLength`. -/
def evlSegs (s : Str) : List Str := splitChar '-' (evlActual s)

/-- The ticket-id segment: the piece before the first hyphen. -/
def evlTicket (s : Str) : Str := (evlSegs s).headD []

/-- The generative part: everything after the first hyphen, rejoined. -/
def evlGen (s : Str) : Str := joinWith ['-'] (evlSegs s).tail

/-- `BranchNameGenerator.ensureValidLength` from `src/branch.ts`.  Note that
`List.take` on a truncated natural-number budget models JavaScript's
`substring(0, n)`, which clamps a negative `n` to 0. -/
def ensureValidLength (branchName : Str) : Str :=
  if branchName.length ≤ 50 then branchName
  else
    evlPre branchName ++ evlTicket branchName ++
      '-' :: (evlGen branchName).take
        (50 - (evlPre branchName).length - (evlTicket branchName).length - 1)

/-- `prefix ? prefix + '/' + branchName : branchName`; an empty string is
falsy in JavaScript, hence the emptiness test. -/
def applyPre (pre : Option Str) (branchName : Str) : Str :=
  match pre with
  | some p => if p.isEmpty then branchName else p ++ '/' :: branchName
  | none => branchName

/-- `BranchNameGenerator.generateFallback` from `src/branch.ts`. -/
def generateFallback (issueKey summary : Str) (description pre : Option Str) : Str :=
  ensureValidLength (applyPre pre
    (issueKey ++ '-' :: generateConciseName (analyzeTicketContent summary description)))

/-- Truthiness of the `openaiApiKey` argument of `generate`. -/
def apiKeyPresent (key : Option Str) : Bool :=
  match key with
  | some k => !k.isEmpty
  | none => false

/-- `BranchNameGenerator.generate` from `src/branch.ts`.  The network call
`aiService.generateBranchSummary` is abstracted as the `aiOutcome`
argument: `Except.error` models a thrown exception anywhere in the `try`
block, `Except.ok none` a null result, `Except.ok (some s)` the returned
summary (an empty `s` is falsy and also takes the fallback path). -/
def generate (issueKey summary : Str) (description pre apiKey : Option Str)
    (aiOutcome : Except Unit (Option Str)) : Str :=
  if apiKeyPresent apiKey then
    match aiOutcome with
    | Except.error _ => generateFallback issueKey summary description pre
    | Except.ok none => generateFallback issueKey summary description pre
    | Except.ok (some aiSummary) =>
      if aiSummary.isEmpty then generateFallback issueKey summary description pre
      else ensureValidLength (applyPre pre (issueKey ++ '-' :: aiSummary))
  else generateFallback issueKey summary description pre

/-- The sequential `replace(/\r\n/g, '\n')` from `PullRequestGenerator.generate`
in `src/pull_request.ts`. -/
def replaceCrLf : Str → Str
  | [] => []
  | '\r' :: '\n' :: rest => '\n' :: replaceCrLf rest
  | c :: rest => c :: replaceCrLf rest

/-- The subsequent `replace(/\r/g, '\n')`. -/
def mapCr (s : Str) : Str := s.map fun c => if c == '\r' then '\n' else c

/-- The commit list of `PullRequestGenerator.generate`: trim the raw
`git log` output, normalise newlines, split into lines, keep the lines that
are non-empty after trimming. -/
def commitList (raw : Str) : List Str :=
  (splitChar '\n' (mapCr (replaceCrLf (jsTrim raw)))).filter (fun m => !(jsTrim m).isEmpty)

/-- The message handed to `aiService.generateGithubPrTitle`: the kept lines,
reversed into oldest-first order and joined with newlines.  No truncation
of any kind is applied by the source. -/
def prepareCommitMessage (raw : Str) : Str :=
  joinWith ['\n'] (commitList raw).reverse

/-- The tokenizer as worded by the specification (section 4.1): lower-case,
replace characters that are not word characters, whitespace or hyphens by
spaces, split into whitespace-separated words, and discard tokens of length
at most 2, stop words, and all-digit tokens. -/
def tokenizeSpec (text : Str) : List Str :=
  (wordsWs (replaceNonTokenChars (lowerStr text))).filter keepToken

/-- The primary-action rule as worded by the claim: the first word of the
summary's own lower-cased, whitespace-split word sequence that is an action
word, else the first extracted action, else absent. -/
def specPrimaryAction (summary : Str) (actions : List Str) : Option Str :=
  match (wordsWs (lowerStr summary)).find? (fun w => decide (w ∈ ACTION_WORDS)) with
  | some w => some w
  | none => actions.head?

/-- The token score as worded by the claim: base 1, +5 action, +4 technical,
+2 entity, +1 length above 6, -1 too-generic. -/
def specScore (entities : List Str) (token : Str) : Int :=
  1 + (if token ∈ ACTION_WORDS then (5 : Int) else 0)
    + (if token ∈ TECH_KEYWORDS then (4 : Int) else 0)
    + (if token ∈ entities then (2 : Int) else 0)
    + (if 6 < token.length then (1 : Int) else 0)
    - (if token ∈ commonWords then (1 : Int) else 0)

/-! ### Basic properties of the string-splitting and joining models -/

theorem splitChar_cons (c a : Char) (rest : Str) :
    splitChar c (a :: rest) =
      match splitChar c rest with
      | [] => [[]]
      | h :: t => if a = c then [] :: h :: t else (a :: h) :: t := rfl

theorem splitChar_ne_nil (c : Char) (s : Str) : splitChar c s ≠ [] := by
  induction s with
  | nil => simp [splitChar]
  | cons a rest ih =>
    rcases h : splitChar c rest with _ | ⟨hd, tl⟩
    · exact absurd h ih
    · simp only [splitChar_cons, h]
      split <;> simp

theorem joinWith_cons_head (sep : Str) (a : Char) (x : Str) (L : List Str) :
    joinWith sep ((a :: x) :: L) = a :: joinWith sep (x :: L) := by
  cases L <;> simp [joinWith]

theorem joinWith_cons_of_ne_nil (sep : Str) (x : Str) {L : List Str} (h : L ≠ []) :
    joinWith sep (x :: L) = x ++ sep ++ joinWith sep L := by
  cases L with
  | nil => exact absurd rfl h
  | cons y L2 => rfl

theorem joinWith_splitChar (c : Char) (s : Str) : joinWith [c] (splitChar c s) = s := by
  induction s with
  | nil => simp [splitChar, joinWith]
  | cons a rest ih =>
    rcases h : splitChar c rest with _ | ⟨hd, tl⟩
    · exact absurd h (splitChar_ne_nil c rest)
    · rw [h] at ih
      simp only [splitChar_cons, h]
      split
      · next heq =>
        subst heq
        rw [joinWith_cons_of_ne_nil _ _ (by simp)]
        simpa using ih
      · rw [joinWith_cons_head, ih]

theorem splitChar_append_sep (c : Char) (u v : Str) :
    splitChar c (u ++ c :: v) = splitChar c u ++ splitChar c v := by
  induction u with
  | nil =>
    rcases h : splitChar c v with _ | ⟨hd, tl⟩
    · exact absurd h (splitChar_ne_nil c v)
    · simp [splitChar_cons, splitChar, h]
  | cons a u ih =>
    rcases h : splitChar c u with _ | ⟨hd, tl⟩
    · exact absurd h (splitChar_ne_nil c u)
    · rw [List.cons_append, splitChar_cons, ih, h]
      simp only [List.cons_append]
      split
      · next hac => simp [splitChar_cons, h, hac]
      · next hac => simp [splitChar_cons, h, hac]

theorem splitChar_of_not_mem {c : Char} {s : Str} (h : c ∉ s) : splitChar c s = [s] := by
  induction s with
  | nil => simp [splitChar]
  | cons a rest ih =>
    have ha : ¬(a = c) := fun e => h (by simp [e])
    have hr : c ∉ rest := fun m => h (List.mem_cons_of_mem _ m)
    simp [splitChar_cons, ih hr, ha]

theorem not_mem_of_mem_splitChar {c : Char} {s t : Str} (ht : t ∈ splitChar c s) : c ∉ t := by
  induction s generalizing t with
  | nil =>
    simp only [splitChar, List.mem_singleton] at ht
    subst ht; simp
  | cons a rest ih =>
    rcases h : splitChar c rest with _ | ⟨hd, tl⟩
    · exact absurd h (splitChar_ne_nil c rest)
    · simp only [splitChar_cons, h] at ht
      by_cases hac : a = c
      · rw [if_pos hac] at ht
        rcases List.mem_cons.mp ht with h1 | h1
        · subst h1; simp
        · exact ih (h ▸ h1)
      · rw [if_neg hac] at ht
        rcases List.mem_cons.mp ht with h1 | h1
        · subst h1
          intro hm
          rcases List.mem_cons.mp hm with h2 | h2
          · exact hac h2.symm
          · exact ih (h ▸ List.mem_cons_self hd tl) h2
        · exact ih (h ▸ List.mem_cons_of_mem hd h1)

theorem mem_of_mem_splitChar {c : Char} {s t : Str} {x : Char}
    (ht : t ∈ splitChar c s) (hx : x ∈ t) : x ∈ s := by
  induction s generalizing t with
  | nil =>
    simp only [splitChar, List.mem_singleton] at ht
    subst ht; simp at hx
  | cons a rest ih =>
    rcases h : splitChar c rest with _ | ⟨hd, tl⟩
    · exact absurd h (splitChar_ne_nil c rest)
    · simp only [splitChar_cons, h] at ht
      by_cases hac : a = c
      · rw [if_pos hac] at ht
        rcases List.mem_cons.mp ht with h1 | h1
        · subst h1; simp at hx
        · exact List.mem_cons_of_mem _ (ih (h ▸ h1) hx)
      · rw [if_neg hac] at ht
        rcases List.mem_cons.mp ht with h1 | h1
        · subst h1
          rcases List.mem_cons.mp hx with h2 | h2
          · exact h2 ▸ List.mem_cons_self a rest
          · exact List.mem_cons_of_mem _ (ih (h ▸ List.mem_cons_self hd tl) h2)
        · exact List.mem_cons_of_mem _ (ih (h ▸ List.mem_cons_of_mem hd h1) hx)

theorem splitChar_joinWith {c : Char} {L : List Str} (hne : L ≠ [])
    (hsep : ∀ t ∈ L, c ∉ t) : splitChar c (joinWith [c] L) = L := by
  induction L with
  | nil => exact absurd rfl hne
  | cons x L ih =>
    cases L with
    | nil =>
      simp only [joinWith]
      exact splitChar_of_not_mem (hsep x (List.mem_singleton.mpr rfl))
    | cons y L2 =>
      rw [joinWith_cons_of_ne_nil _ _ (by simp)]
      have : x ++ [c] ++ joinWith [c] (y :: L2) = x ++ c :: joinWith [c] (y :: L2) := by simp
      rw [this, splitChar_append_sep, splitChar_of_not_mem (hsep x (by simp)),
        ih (by simp) (fun t htm => hsep t (List.mem_cons_of_mem _ htm))]
      rfl

theorem joinWith_append_single (sep x : Str) {L : List Str} (h : L ≠ []) :
    joinWith sep (L ++ [x]) = joinWith sep L ++ sep ++ x := by
  induction L with
  | nil => exact absurd rfl h
  | cons y L ih =>
    cases L with
    | nil => simp [joinWith]
    | cons z L2 =>
      rw [List.cons_append, joinWith_cons_of_ne_nil _ _ (by simp),
        joinWith_cons_of_ne_nil _ _ (by simp), ih (by simp)]
      simp

theorem mem_joinWith {sep : Str} {L : List Str} {x : Char}
    (hx : x ∈ joinWith sep L) : (∃ t ∈ L, x ∈ t) ∨ x ∈ sep := by
  induction L with
  | nil => simp [joinWith] at hx
  | cons t L ih =>
    cases L with
    | nil =>
      simp only [joinWith] at hx
      exact Or.inl ⟨t, by simp, hx⟩
    | cons u L2 =>
      rw [joinWith_cons_of_ne_nil _ _ (by simp)] at hx
      rcases List.mem_append.mp hx with h1 | h1
      · rcases List.mem_append.mp h1 with h2 | h2
        · exact Or.inl ⟨t, by simp, h2⟩
        · exact Or.inr h2
      · rcases ih h1 with ⟨t2, ht2, hxt2⟩ | h2
        · exact Or.inl ⟨t2, List.mem_cons_of_mem _ ht2, hxt2⟩
        · exact Or.inr h2

theorem dropLast_append_getLastD {α : Type} (l : List α) (d : α) (h : l ≠ []) :
    l.dropLast ++ [l.getLastD d] = l := by
  induction l with
  | nil => exact absurd rfl h
  | cons a l ih =>
    cases l with
    | nil => simp
    | cons b l2 =>
      have h2 : (a :: b :: l2).getLastD d = (b :: l2).getLastD d := by simp
      rw [List.dropLast_cons₂, h2, List.cons_append, ih (by simp)]

theorem getLastD_mem {α : Type} (l : List α) (d : α) (h : l ≠ []) : l.getLastD d ∈ l := by
  induction l with
  | nil => exact absurd rfl h
  | cons a l ih =>
    cases l with
    | nil => simp
    | cons b l2 =>
      have h2 : (a :: b :: l2).getLastD d = (b :: l2).getLastD d := by simp
      rw [h2]
      exact List.mem_cons_of_mem _ (ih (by simp))

theorem headD_mem {α : Type} (l : List α) (d : α) (h : l ≠ []) : l.headD d ∈ l := by
  cases l with
  | nil => exact absurd rfl h
  | cons a l2 => simp

theorem splitChar_append_single_sep (c : Char) {u : Str} (hnu : c ∉ u) :
    splitChar c (u ++ [c]) = [u, []] := by
  have h1 : u ++ [c] = u ++ c :: ([] : Str) := rfl
  rw [h1, splitChar_append_sep, splitChar_of_not_mem hnu]
  rfl

/-! ### Structure of `ensureValidLength` -/

theorem evlParts_ne_nil (s : Str) : evlParts s ≠ [] := splitChar_ne_nil '/' s

theorem evlSegs_ne_nil (s : Str) : evlSegs s ≠ [] := splitChar_ne_nil '-' (evlActual s)

theorem evlActual_mem (s : Str) : evlActual s ∈ evlParts s :=
  getLastD_mem _ _ (evlParts_ne_nil s)

theorem evlActual_no_slash (s : Str) : '/' ∉ evlActual s :=
  not_mem_of_mem_splitChar (evlActual_mem s)

theorem evlTicket_mem (s : Str) : evlTicket s ∈ evlSegs s :=
  headD_mem _ _ (evlSegs_ne_nil s)

theorem evlTicket_no_hyphen (s : Str) : '-' ∉ evlTicket s :=
  not_mem_of_mem_splitChar (evlTicket_mem s)

theorem evlTicket_no_slash (s : Str) : '/' ∉ evlTicket s := fun hm =>
  evlActual_no_slash s (mem_of_mem_splitChar (evlTicket_mem s) hm)

theorem evlPre_append_actual (s : Str) : evlPre s ++ evlActual s = s := by
  rw [evlPre]
  split
  · next h =>
    have hne : evlParts s ≠ [] := evlParts_ne_nil s
    have hdl : (evlParts s).dropLast ≠ [] := by
      intro hd
      have hlen := congrArg List.length hd
      rw [List.length_dropLast] at hlen
      simp only [List.length_nil] at hlen
      omega
    calc joinWith ['/'] (evlParts s).dropLast ++ ['/'] ++ evlActual s
        = joinWith ['/'] ((evlParts s).dropLast ++ [evlActual s]) :=
          (joinWith_append_single _ _ hdl).symm
      _ = joinWith ['/'] (evlParts s) := by
          rw [evlActual, dropLast_append_getLastD _ _ hne]
      _ = s := joinWith_splitChar '/' s
  · next h =>
    have hne := evlParts_ne_nil s
    rcases hp : evlParts s with _ | ⟨x, tl⟩
    · exact absurd hp hne
    · have htl : tl = [] := by
        cases tl with
        | nil => rfl
        | cons y tl2 => rw [hp] at h; simp at h
      subst htl
      have hx : evlActual s = x := by rw [evlActual, hp]; rfl
      have hs : x = s := by
        have hj := joinWith_splitChar '/' s
        rw [show splitChar '/' s = evlParts s from rfl, hp] at hj
        simpa [joinWith] using hj
      simp [hx, hs]

theorem evlGen_chars (s : Str) {x : Char} (hx : x ∈ evlGen s) :
    x ∈ evlActual s ∨ x = '-' := by
  rcases mem_joinWith hx with ⟨t, ht, hxt⟩ | hsep
  · left
    have hts : t ∈ evlSegs s := List.mem_of_mem_tail ht
    exact mem_of_mem_splitChar hts hxt
  · right; simpa using hsep

/-- The truncated result of the over-long branch of `ensureValidLength`. -/
theorem ensureValidLength_of_long {s : Str} (h : 50 < s.length) :
    ensureValidLength s =
      evlPre s ++ evlTicket s ++
        '-' :: (evlGen s).take (50 - (evlPre s).length - (evlTicket s).length - 1) := by
  rw [ensureValidLength, if_neg (not_le.mpr h)]

theorem ensureValidLength_length (s : Str) (h : 50 < s.length) :
    (ensureValidLength s).length =
      (evlPre s).length + (evlTicket s).length + 1 +
        min (50 - (evlPre s).length - (evlTicket s).length - 1) (evlGen s).length := by
  rw [ensureValidLength_of_long h]
  simp [List.length_append, List.length_take]
  omega

/-- A string of the exact shape produced by an over-budget truncation whose
kept part alone exceeds the budget is a fixed point of `ensureValidLength`. -/
theorem ensureValidLength_fixed {r p tk : Str} (hr : r = p ++ tk ++ ['-'])
    (hlen : 50 < r.length) (hP : evlPre r = p) (hA : evlActual r = tk ++ ['-'])
    (htk : '-' ∉ tk) : ensureValidLength r = r := by
  have hsegs : evlSegs r = [tk, []] := by
    rw [evlSegs, hA, splitChar_append_single_sep '-' htk]
  have hT : evlTicket r = tk := by rw [evlTicket, hsegs]; rfl
  have hG : evlGen r = [] := by rw [evlGen, hsegs]; rfl
  rw [ensureValidLength_of_long hlen, hP, hT, hG, List.take_nil, hr]

/-- C10: the length-enforcement post-processor is idempotent: for every
string `s`, `ensureValidLength (ensureValidLength s)` equals
`ensureValidLength s`. -/
theorem C10_ensureValidLength_idempotent (s : Str) :
    ensureValidLength (ensureValidLength s) = ensureValidLength s := by
  by_cases h50 : s.length ≤ 50
  · have hs : ensureValidLength s = s := by rw [ensureValidLength, if_pos h50]
    rw [hs, hs]
  · push_neg at h50
    by_cases hr50 : (ensureValidLength s).length ≤ 50
    · conv_lhs => rw [ensureValidLength]
      rw [if_pos hr50]
    · push_neg at hr50
      have hrlen := ensureValidLength_length s h50
      have hminle : min (50 - (evlPre s).length - (evlTicket s).length - 1) (evlGen s).length ≤
          50 - (evlPre s).length - (evlTicket s).length - 1 := Nat.min_le_left _ _
      have hbig : 50 < (evlPre s).length + (evlTicket s).length + 1 := by omega
      have hm0 : 50 - (evlPre s).length - (evlTicket s).length - 1 = 0 := by omega
      have hr2 : ensureValidLength s = evlPre s ++ evlTicket s ++ ['-'] := by
        rw [ensureValidLength_of_long h50, hm0, List.take_zero]
      have hnosA : '/' ∉ evlTicket s ++ ['-'] := by
        intro hm
        rcases List.mem_append.mp hm with h1 | h1
        · exact evlTicket_no_slash s h1
        · simp at h1
      by_cases hpp : 1 < (evlParts s).length
      · -- there is a slash-separated front part
        have hdl : (evlParts s).dropLast ≠ [] := by
          intro hd
          have hlen2 := congrArg List.length hd
          rw [List.length_dropLast] at hlen2
          simp only [List.length_nil] at hlen2
          omega
        have hpe : evlPre s = joinWith ['/'] (evlParts s).dropLast ++ ['/'] := by
          rw [evlPre, if_pos hpp]
        have hnodl : ∀ t ∈ (evlParts s).dropLast, '/' ∉ t := fun t ht =>
          not_mem_of_mem_splitChar ((List.dropLast_sublist _).mem ht)
        have hr3 : evlPre s ++ evlTicket s ++ ['-'] =
            joinWith ['/'] (evlParts s).dropLast ++ '/' :: (evlTicket s ++ ['-']) := by
          rw [hpe]; simp
        have hparts : evlParts (evlPre s ++ evlTicket s ++ ['-']) =
            (evlParts s).dropLast ++ [evlTicket s ++ ['-']] := by
          rw [evlParts, hr3, splitChar_append_sep, splitChar_joinWith hdl hnodl,
            splitChar_of_not_mem hnosA]
        have hP : evlPre (evlPre s ++ evlTicket s ++ ['-']) = evlPre s := by
          rw [evlPre, hparts]
          rw [if_pos (by simp; omega)]
          rw [List.dropLast_concat, hpe]
        have hA : evlActual (evlPre s ++ evlTicket s ++ ['-']) = evlTicket s ++ ['-'] := by
          rw [evlActual, hparts]
          simp [List.getLastD_concat]
        rw [hr2]
        exact ensureValidLength_fixed rfl (hr2 ▸ hr50) hP hA (evlTicket_no_hyphen s)
      · -- no slash in the input
        have hpe : evlPre s = [] := by rw [evlPre, if_neg hpp]
        have hparts : evlParts (evlPre s ++ evlTicket s ++ ['-']) =
            [evlTicket s ++ ['-']] := by
          rw [evlParts, hpe]
          simp only [List.nil_append]
          exact splitChar_of_not_mem hnosA
        have hP : evlPre (evlPre s ++ evlTicket s ++ ['-']) = evlPre s := by
          rw [evlPre, hparts, if_neg (by simp), hpe]
        have hA : evlActual (evlPre s ++ evlTicket s ++ ['-']) = evlTicket s ++ ['-'] := by
          rw [evlActual, hparts]
          rfl
        rw [hr2]
        exact ensureValidLength_fixed rfl (hr2 ▸ hr50) hP hA (evlTicket_no_hyphen s)

/-- C1 (counterexample): for a 60-character ticket id without hyphens the
slug returned by `generateFallback` keeps the whole ticket id and a trailing
hyphen, 61 characters in total, so the claimed 50-character bound fails. -/
theorem C1_length_counterexample :
    ¬ ((generateFallback (List.replicate 60 'A') (String.data "x") none none).length ≤ 50) := by
  decide

/-- C1 (amended): the slug after length enforcement has length at most
`max 50 (p + t + 1)` where `p` and `t` are the lengths of the
slash-terminated front part and of the ticket-id segment kept verbatim by
`ensureValidLength`; in particular the length is at most 50 whenever that
kept part fits within the budget. -/
theorem C1_length_amended (s : Str) :
    (ensureValidLength s).length ≤ max 50 ((evlPre s).length + (evlTicket s).length + 1) ∧
    ((evlPre s).length + (evlTicket s).length + 1 ≤ 50 →
      (ensureValidLength s).length ≤ 50) := by
  by_cases h : s.length ≤ 50
  · have hs : ensureValidLength s = s := by rw [ensureValidLength, if_pos h]
    refine ⟨?_, fun _ => ?_⟩
    · rw [hs]; exact le_trans h (Nat.le_max_left _ _)
    · rw [hs]; exact h
  · push_neg at h
    have hlen := ensureValidLength_length s h
    have hminle := Nat.min_le_left
      (50 - (evlPre s).length - (evlTicket s).length - 1) (evlGen s).length
    have h1 := Nat.le_max_left 50 ((evlPre s).length + (evlTicket s).length + 1)
    have h2 := Nat.le_max_right 50 ((evlPre s).length + (evlTicket s).length + 1)
    exact ⟨by omega, fun hfit => by omega⟩

/-- C1 (amended, witness): at the specification's own 72-character example
the kept part fits, so the enforced slug is at most 50 characters long. -/
theorem C1_length_amended_witness :
    (ensureValidLength (String.data
      "feature/eh-1234-implement-very-long-detailed-payment-gateway-integration")).length ≤ 50 :=
  (C1_length_amended (String.data
    "feature/eh-1234-implement-very-long-detailed-payment-gateway-integration")).2 (by decide)

/-- C2: on any over-budget slug, length enforcement returns the front part,
the ticket-id segment kept verbatim, a hyphen, and a prefix of the
generative part (only the generative part is truncated); and for ticket id
`EH-1234` with summary `Fix user authentication bug` the composed slug
begins with `EH-1234-`. -/
theorem C2_ticket_segment_preserved :
    (∀ s : Str, 50 < s.length →
      ensureValidLength s =
        evlPre s ++ evlTicket s ++
          '-' :: (evlGen s).take (50 - (evlPre s).length - (evlTicket s).length - 1) ∧
      (evlGen s).take (50 - (evlPre s).length - (evlTicket s).length - 1) <+: evlGen s) ∧
    String.data "EH-1234-" <+:
      generateFallback (String.data "EH-1234")
        (String.data "Fix user authentication bug") none none := by
  constructor
  · intro s h
    exact ⟨ensureValidLength_of_long h,
      ⟨(evlGen s).drop (50 - (evlPre s).length - (evlTicket s).length - 1),
        List.take_append_drop _ _⟩⟩
  · decide

/-- C2 (witness): the truncation shape at the specification's 72-character
example slug. -/
theorem C2_ticket_segment_preserved_witness :
    ensureValidLength (String.data
        "feature/eh-1234-implement-very-long-detailed-payment-gateway-integration") =
      evlPre (String.data
        "feature/eh-1234-implement-very-long-detailed-payment-gateway-integration") ++
      evlTicket (String.data
        "feature/eh-1234-implement-very-long-detailed-payment-gateway-integration") ++
      '-' :: (evlGen (String.data
        "feature/eh-1234-implement-very-long-detailed-payment-gateway-integration")).take
        (50 - (evlPre (String.data
          "feature/eh-1234-implement-very-long-detailed-payment-gateway-integration")).length -
          (evlTicket (String.data
          "feature/eh-1234-implement-very-long-detailed-payment-gateway-integration")).length - 1) ∧
    (evlGen (String.data
        "feature/eh-1234-implement-very-long-detailed-payment-gateway-integration")).take
      (50 - (evlPre (String.data
        "feature/eh-1234-implement-very-long-detailed-payment-gateway-integration")).length -
        (evlTicket (String.data
        "feature/eh-1234-implement-very-long-detailed-payment-gateway-integration")).length - 1) <+:
      evlGen (String.data
        "feature/eh-1234-implement-very-long-detailed-payment-gateway-integration") :=
  C2_ticket_segment_preserved.1 (String.data
    "feature/eh-1234-implement-very-long-detailed-payment-gateway-integration") (by decide)

/-- C4: if no API key is supplied, or the model tier raises, or it yields a
null or empty summary, `generate` returns exactly what `generateFallback`
returns for the same inputs. -/
theorem C4_provider_failure_fallback (issueKey summary : Str)
    (description pre apiKey : Option Str) (aiOutcome : Except Unit (Option Str))
    (h : apiKeyPresent apiKey = false ∨ aiOutcome = Except.error () ∨
      aiOutcome = Except.ok none ∨ aiOutcome = Except.ok (some [])) :
    generate issueKey summary description pre apiKey aiOutcome =
      generateFallback issueKey summary description pre := by
  rcases h with h | h | h | h
  · simp [generate, h]
  · subst h; simp [generate]
  · subst h; simp [generate]
  · subst h; simp [generate, List.isEmpty]

/-- C4 (witness): with no API key and a failing provider, a concrete call to
`generate` equals the fallback result. -/
theorem C4_provider_failure_fallback_witness :
    generate (String.data "EH-1") (String.data "Fix bug") none none none
        (Except.error ()) =
      generateFallback (String.data "EH-1") (String.data "Fix bug") none none :=
  C4_provider_failure_fallback (String.data "EH-1") (String.data "Fix bug")
    none none none (Except.error ()) (Or.inl rfl)

/-- C8: the deterministic generator is total and its generative part is never
empty; in particular the summary `Do it`, which has no usable tokens,
produces the literal `update`. -/
theorem C8_concise_name_nonempty :
    (∀ (summary : Str) (description : Option Str),
      generateConciseName (analyzeTicketContent summary description) ≠ []) ∧
    generateConciseName (analyzeTicketContent (String.data "Do it") none) =
      String.data "update" := by
  constructor
  · intro summary description
    rw [generateConciseName]
    split
    · decide
    · next h =>
      simpa using h
  · decide

theorem dropWhile_eq_self_of {p : Char → Bool} {s : Str} (h : ∀ c ∈ s, p c = false) :
    s.dropWhile p = s := by
  cases s with
  | nil => rfl
  | cons a rest => simp [List.dropWhile_cons, h a (List.mem_cons_self a rest)]

theorem stripEdges_eq_self_of {p : Char → Bool} {s : Str} (h : ∀ c ∈ s, p c = false) :
    stripEdges p s = s := by
  rw [stripEdges, dropWhile_eq_self_of h,
    dropWhile_eq_self_of (fun c hc => h c (List.mem_reverse.mp hc)), List.reverse_reverse]

theorem infix_of_mem_joinWith {sep : Str} {L : List Str} {m : Str} (hm : m ∈ L) :
    m <:+: joinWith sep L := by
  induction L with
  | nil => simp at hm
  | cons t L ih =>
    cases L with
    | nil =>
      rw [List.mem_singleton] at hm
      subst hm
      exact ⟨[], [], by simp [joinWith]⟩
    | cons u L2 =>
      rw [joinWith_cons_of_ne_nil _ _ (by simp)]
      rcases List.mem_cons.mp hm with h1 | h1
      · subst h1
        exact ⟨[], sep ++ joinWith sep (u :: L2), by simp⟩
      · rcases ih h1 with ⟨x, y, hxy⟩
        exact ⟨t ++ sep ++ x, y, by rw [← hxy]; simp⟩

/-- C9 (counterexample): a single 2500-character commit subject line reaches
the provider whole, 2500 characters long: no 2000-character truncation is
applied anywhere on the PR-title path. -/
theorem C9_truncation_counterexample :
    2000 < (prepareCommitMessage (List.replicate 2500 'a')).length := by
  have hnws : ∀ c ∈ List.replicate 2500 'a', isWs c = false := by
    intro c hc
    rw [List.eq_of_mem_replicate hc]
    rfl
  have htrim : jsTrim (List.replicate 2500 'a') = List.replicate 2500 'a' :=
    stripEdges_eq_self_of hnws
  have hcrlf : ∀ n : Nat, replaceCrLf (List.replicate n 'a') = List.replicate n 'a' := by
    intro n
    induction n with
    | zero => rfl
    | succ k ih =>
      rw [List.replicate_succ,
        show replaceCrLf ('a' :: List.replicate k 'a') =
          'a' :: replaceCrLf (List.replicate k 'a') from rfl, ih]
  have hmap : mapCr (List.replicate 2500 'a') = List.replicate 2500 'a' := by
    rw [mapCr, List.map_replicate]
    rfl
  have hnlf : ('\n' : Char) ∉ List.replicate 2500 'a' := by
    intro h
    have := List.eq_of_mem_replicate h
    simp at this
  have hsplit : splitChar '\n' (List.replicate 2500 'a') = [List.replicate 2500 'a'] :=
    splitChar_of_not_mem hnlf
  have hne : (!(jsTrim (List.replicate 2500 'a')).isEmpty) = true := by
    rw [htrim, show (2500 : Nat) = 2499 + 1 from rfl, List.replicate_succ]
    rfl
  have hclist : commitList (List.replicate 2500 'a') = [List.replicate 2500 'a'] := by
    rw [commitList, htrim, hcrlf 2500, hmap, hsplit]
    simp only [List.filter, hne]
  rw [prepareCommitMessage, hclist,
    show ([List.replicate 2500 'a']).reverse = [List.replicate 2500 'a'] from rfl,
    show joinWith ['\n'] [List.replicate 2500 'a'] = List.replicate 2500 'a' from rfl,
    List.length_replicate]
  norm_num

/-- C9 (amended): the PR-title path joins the kept commit subject lines
oldest first and passes the joined message to the provider with every kept
line intact — no truncation and no ellipsis marker. -/
theorem C9_join_untruncated :
    (∀ raw : Str, prepareCommitMessage raw = joinWith ['\n'] (commitList raw).reverse) ∧
    (∀ raw : Str, ∀ m ∈ commitList raw, m <:+: prepareCommitMessage raw) := by
  refine ⟨fun raw => rfl, fun raw m hm => ?_⟩
  rw [prepareCommitMessage]
  exact infix_of_mem_joinWith (List.mem_reverse.mpr hm)

/-- C9 (amended, witness): the first commit subject of a concrete two-line
log appears whole in the message handed to the provider. -/
theorem C9_join_untruncated_witness :
    (String.data "fix bug") <:+: prepareCommitMessage (String.data "fix bug\nadd api") :=
  C9_join_untruncated.2 (String.data "fix bug\nadd api") (String.data "fix bug") (by decide)

/-! ### Equivalence of the tokenizer with its specification wording -/

theorem wordsWs_cons_ws {a : Char} (rest : Str) (ha : isWs a = true) :
    wordsWs (a :: rest) = wordsWs rest := by
  rw [wordsWs.eq_def]
  simp [ha]

theorem wordsWs_singleton_nws {a : Char} (ha : isWs a = false) : wordsWs [a] = [[a]] := by
  rw [wordsWs.eq_def]
  simp [ha]

theorem wordsWs_cons_nws_ws {a b : Char} (v : Str) (ha : isWs a = false)
    (hb : isWs b = true) : wordsWs (a :: b :: v) = [a] :: wordsWs (b :: v) := by
  rw [wordsWs.eq_def]
  simp [ha, hb]

theorem wordsWs_cons_nws_nws {a b : Char} (v : Str) (ha : isWs a = false)
    (hb : isWs b = false) :
    wordsWs (a :: b :: v) =
      match wordsWs (b :: v) with
      | [] => [[a]]
      | h :: t => (a :: h) :: t := by
  conv_lhs => rw [wordsWs.eq_def]
  simp only [ha, hb, Bool.false_eq_true, if_false]

theorem jsSplitWs_cons_ws_nil {a : Char} (ha : isWs a = true) :
    jsSplitWs [a] = [[], []] := by
  rw [jsSplitWs.eq_def]
  simp [ha, jsSplitWs]

theorem jsSplitWs_cons_ws_ws {a b : Char} (v : Str) (ha : isWs a = true)
    (hb : isWs b = true) : jsSplitWs (a :: b :: v) = jsSplitWs (b :: v) := by
  rw [jsSplitWs.eq_def]
  simp [ha, hb]

theorem jsSplitWs_cons_ws_nws {a b : Char} (v : Str) (ha : isWs a = true)
    (hb : isWs b = false) : jsSplitWs (a :: b :: v) = [] :: jsSplitWs (b :: v) := by
  rw [jsSplitWs.eq_def]
  simp [ha, hb]

theorem jsSplitWs_cons_nws {a : Char} (rest : Str) (ha : isWs a = false) :
    jsSplitWs (a :: rest) =
      match jsSplitWs rest with
      | [] => [[a]]
      | h :: t => (a :: h) :: t := by
  conv_lhs => rw [jsSplitWs.eq_def]
  simp only [ha, Bool.false_eq_true, if_false]

theorem jsSplitWs_singleton_nws {a : Char} (ha : isWs a = false) :
    jsSplitWs [a] = [[a]] := by
  rw [jsSplitWs_cons_nws [] ha]
  rfl

theorem jsSplitWs_ne_nil (s : Str) : jsSplitWs s ≠ [] := by
  induction s with
  | nil => simp [jsSplitWs]
  | cons a rest ih =>
    cases ha : isWs a with
    | true =>
      cases rest with
      | nil => simp [jsSplitWs_cons_ws_nil ha]
      | cons b v2 =>
        cases hb : isWs b with
        | true => rw [jsSplitWs_cons_ws_ws v2 ha hb]; exact ih
        | false => simp [jsSplitWs_cons_ws_nws v2 ha hb]
    | false =>
      rw [jsSplitWs_cons_nws rest ha]
      rcases h : jsSplitWs rest with _ | ⟨hd, tl⟩
      · exact absurd h ih
      · simp

theorem jsSplitWs_head_empty {b : Char} (v : Str) (hb : isWs b = true) :
    ∃ t, jsSplitWs (b :: v) = [] :: t := by
  induction v generalizing b with
  | nil => exact ⟨[[]], jsSplitWs_cons_ws_nil hb⟩
  | cons c v2 ih =>
    cases hc : isWs c with
    | true =>
      rcases ih hc with ⟨t, ht⟩
      exact ⟨t, by rw [jsSplitWs_cons_ws_ws v2 hb hc, ht]⟩
    | false => exact ⟨jsSplitWs (c :: v2), jsSplitWs_cons_ws_nws v2 hb hc⟩

theorem jsSplitWs_head_cons {b : Char} (v : Str) (hb : isWs b = false) :
    ∃ h t, jsSplitWs (b :: v) = (b :: h) :: t := by
  rcases hv : jsSplitWs v with _ | ⟨hd, tl⟩
  · exact absurd hv (jsSplitWs_ne_nil v)
  · exact ⟨hd, tl, by rw [jsSplitWs_cons_nws v hb, hv]⟩

theorem filter_jsSplitWs_eq_wordsWs (v : Str) :
    (jsSplitWs v).filter (fun t => !t.isEmpty) = wordsWs v := by
  induction v with
  | nil => rfl
  | cons a rest ih =>
    cases ha : isWs a with
    | true =>
      rw [wordsWs_cons_ws rest ha]
      cases rest with
      | nil =>
        rw [jsSplitWs_cons_ws_nil ha]
        rfl
      | cons b v2 =>
        cases hb : isWs b with
        | true => rw [jsSplitWs_cons_ws_ws v2 ha hb, ih]
        | false =>
          rw [jsSplitWs_cons_ws_nws v2 ha hb, ← ih]
          rfl
    | false =>
      cases rest with
      | nil =>
        rw [jsSplitWs_singleton_nws ha, wordsWs_singleton_nws ha]
        rfl
      | cons b v2 =>
        cases hb : isWs b with
        | true =>
          rcases jsSplitWs_head_empty v2 hb with ⟨t, ht⟩
          have hsplit2 : jsSplitWs (a :: b :: v2) = [a] :: t := by
            rw [jsSplitWs_cons_nws (b :: v2) ha, ht]
          have hih2 : t.filter (fun x => !x.isEmpty) = wordsWs (b :: v2) := by
            rw [ht] at ih
            simpa using ih
          rw [hsplit2, wordsWs_cons_nws_ws v2 ha hb, ← hih2]
          rfl
        | false =>
          rcases jsSplitWs_head_cons v2 hb with ⟨h, t, ht⟩
          have hsplit2 : jsSplitWs (a :: b :: v2) = (a :: b :: h) :: t := by
            rw [jsSplitWs_cons_nws (b :: v2) ha, ht]
          have hih2 : (b :: h) :: t.filter (fun x => !x.isEmpty) = wordsWs (b :: v2) := by
            rw [ht] at ih
            simpa using ih
          rw [hsplit2, wordsWs_cons_nws_nws v2 ha hb, ← hih2]
          rfl

theorem wordsWs_dropWhile (s : Str) : wordsWs (s.dropWhile isWs) = wordsWs s := by
  induction s with
  | nil => rfl
  | cons a rest ih =>
    cases ha : isWs a with
    | true => rw [List.dropWhile_cons_of_pos ha, ih, wordsWs_cons_ws rest ha]
    | false => rw [List.dropWhile_cons_of_neg (by simp [ha])]

theorem wordsWs_all_ws {t : Str} (h : ∀ c ∈ t, isWs c = true) : wordsWs t = [] := by
  induction t with
  | nil => rfl
  | cons a rest ih =>
    rw [wordsWs_cons_ws rest (h a (List.mem_cons_self a rest))]
    exact ih (fun c hc => h c (List.mem_cons_of_mem a hc))

theorem wordsWs_append_ws {t : Str} (h : ∀ c ∈ t, isWs c = true) (u : Str) :
    wordsWs (u ++ t) = wordsWs u := by
  induction u with
  | nil => exact wordsWs_all_ws h
  | cons a u2 ih =>
    cases ha : isWs a with
    | true => rw [List.cons_append, wordsWs_cons_ws _ ha, ih, wordsWs_cons_ws _ ha]
    | false =>
      cases u2 with
      | nil =>
        cases ht : t with
        | nil => rfl
        | cons c t2 =>
          have hc : isWs c = true := h c (by rw [ht]; exact List.mem_cons_self c t2)
          rw [List.nil_append] at ih
          rw [List.cons_append, List.nil_append, wordsWs_cons_nws_ws t2 ha hc, ← ht, ih,
            wordsWs_singleton_nws ha]
          rfl
      | cons b u3 =>
        cases hb : isWs b with
        | true =>
          rw [List.cons_append, List.cons_append, wordsWs_cons_nws_ws (u3 ++ t) ha hb,
            wordsWs_cons_nws_ws u3 ha hb, ← List.cons_append, ih]
        | false =>
          rw [List.cons_append, List.cons_append, wordsWs_cons_nws_nws (u3 ++ t) ha hb,
            wordsWs_cons_nws_nws u3 ha hb, ← List.cons_append, ih]

theorem wordsWs_jsTrim (s : Str) : wordsWs (jsTrim s) = wordsWs s := by
  have t1 : wordsWs (s.dropWhile isWs) = wordsWs s := wordsWs_dropWhile s
  have hws : ∀ c ∈ (((s.dropWhile isWs).reverse.takeWhile isWs)).reverse, isWs c = true :=
    fun c hc => List.mem_takeWhile_imp (List.mem_reverse.mp hc)
  have hdecomp : s.dropWhile isWs =
      ((s.dropWhile isWs).reverse.dropWhile isWs).reverse ++
        ((s.dropWhile isWs).reverse.takeWhile isWs).reverse := by
    conv_lhs => rw [← List.reverse_reverse (s.dropWhile isWs)]
    conv_lhs =>
      rw [← List.takeWhile_append_dropWhile isWs (s.dropWhile isWs).reverse]
    rw [List.reverse_append]
  rw [jsTrim, stripEdges]
  calc wordsWs ((s.dropWhile isWs).reverse.dropWhile isWs).reverse
      = wordsWs (((s.dropWhile isWs).reverse.dropWhile isWs).reverse ++
          ((s.dropWhile isWs).reverse.takeWhile isWs).reverse) :=
        (wordsWs_append_ws hws _).symm
    _ = wordsWs (s.dropWhile isWs) := by rw [← hdecomp]
    _ = wordsWs s := t1

theorem collapseRuns_cons_nil {p : Char → Bool} {rep a : Char} (ha : p a = true) :
    collapseRuns p rep [a] = [rep] := by
  rw [collapseRuns.eq_def]
  simp [ha]

theorem collapseRuns_cons_pp {p : Char → Bool} {rep a b : Char} (v : Str)
    (ha : p a = true) (hb : p b = true) :
    collapseRuns p rep (a :: b :: v) = collapseRuns p rep (b :: v) := by
  rw [collapseRuns.eq_def]
  simp [ha, hb]

theorem collapseRuns_cons_pn {p : Char → Bool} {rep a b : Char} (v : Str)
    (ha : p a = true) (hb : p b = false) :
    collapseRuns p rep (a :: b :: v) = rep :: collapseRuns p rep (b :: v) := by
  rw [collapseRuns.eq_def]
  simp [ha, hb]

theorem collapseRuns_cons_neg {p : Char → Bool} {rep a : Char} (rest : Str)
    (ha : p a = false) :
    collapseRuns p rep (a :: rest) = a :: collapseRuns p rep rest := by
  rw [collapseRuns.eq_def]
  simp [ha]

theorem collapseRuns_head {p : Char → Bool} {rep : Char} (hrep : p rep = true) :
    ∀ (v : Str) (b : Char), ∃ d w2, collapseRuns p rep (b :: v) = d :: w2 ∧ p d = p b := by
  intro v
  induction v with
  | nil =>
    intro b
    cases hb : p b with
    | true => exact ⟨rep, [], collapseRuns_cons_nil hb, hrep⟩
    | false => exact ⟨b, collapseRuns p rep [], collapseRuns_cons_neg [] hb, hb⟩
  | cons c v2 ih =>
    intro b
    cases hb : p b with
    | true =>
      cases hc : p c with
      | true =>
        rcases ih c with ⟨d, w2, hd, hpd⟩
        refine ⟨d, w2, ?_, ?_⟩
        · rw [collapseRuns_cons_pp v2 hb hc, hd]
        · rw [hpd]; exact hc
      | false =>
        exact ⟨rep, collapseRuns p rep (c :: v2), collapseRuns_cons_pn v2 hb hc, hrep⟩
    | false => exact ⟨b, collapseRuns p rep (c :: v2), collapseRuns_cons_neg (c :: v2) hb, hb⟩

theorem wordsWs_collapseRuns (v : Str) :
    wordsWs (collapseRuns isWs ' ' v) = wordsWs v := by
  induction v with
  | nil => rfl
  | cons a rest ih =>
    cases ha : isWs a with
    | true =>
      rw [wordsWs_cons_ws rest ha]
      cases rest with
      | nil =>
        rw [collapseRuns_cons_nil ha, @wordsWs_cons_ws ' ' [] (by decide)]
      | cons b v2 =>
        cases hb : isWs b with
        | true => rw [collapseRuns_cons_pp v2 ha hb, ih]
        | false =>
          rw [collapseRuns_cons_pn v2 ha hb, @wordsWs_cons_ws ' ' _ (by decide), ih]
    | false =>
      rw [collapseRuns_cons_neg rest ha]
      cases rest with
      | nil => rfl
      | cons b v2 =>
        rcases @collapseRuns_head isWs ' ' (by decide) v2 b with ⟨d, w2, hd, hpd⟩
        cases hb : isWs b with
        | true =>
          have hdw : isWs d = true := by rw [hpd, hb]
          rw [hd, wordsWs_cons_nws_ws w2 ha hdw, ← hd, ih,
            wordsWs_cons_nws_ws v2 ha hb]
        | false =>
          have hdw : isWs d = false := by rw [hpd, hb]
          rw [hd, wordsWs_cons_nws_nws w2 ha hdw, ← hd, ih,
            wordsWs_cons_nws_nws v2 ha hb]

theorem filter_filter_of_imp {α : Type} {p q : α → Bool}
    (h : ∀ a, p a = true → q a = true) (l : List α) :
    (l.filter q).filter p = l.filter p := by
  induction l with
  | nil => rfl
  | cons a l ih =>
    cases hq : q a with
    | true => simp [List.filter_cons, hq, ih]
    | false =>
      have hp : p a = false := by
        cases hpa : p a with
        | true => exact absurd (h a hpa) (by simp [hq])
        | false => rfl
      simp [List.filter_cons, hq, hp, ih]

theorem keepToken_nonempty {t : Str} (h : keepToken t = true) : (!t.isEmpty) = true := by
  rw [keepToken] at h
  simp only [Bool.and_eq_true, decide_eq_true_eq] at h
  rcases t with _ | ⟨c, t2⟩
  · exact absurd h.1.1 (by simp)
  · rfl

/-- C5: the source tokenizer (lower-case, replace specials by spaces,
collapse whitespace, trim, split on `/\s+/`, filter) computes exactly the
tokenizer described by the specification (lower-case, replace specials,
split into whitespace-separated words, discard short, stop-word and
all-digit tokens), tokens kept in original order. -/
theorem C5_tokenize_spec_equivalence (text : Str) : tokenizeText text = tokenizeSpec text := by
  rw [tokenizeText, tokenizeSpec]
  rw [← filter_filter_of_imp (fun t ht => keepToken_nonempty ht)
    (jsSplitWs (jsTrim (collapseRuns isWs ' ' (replaceNonTokenChars (lowerStr text)))))]
  rw [filter_jsSplitWs_eq_wordsWs, wordsWs_jsTrim, wordsWs_collapseRuns]

/-! ### The primary-action rule -/

theorem find_filter_of_imp {α : Type} {p q : α → Bool}
    (h : ∀ a, p a = true → q a = true) (l : List α) :
    (l.filter q).find? p = l.find? p := by
  induction l with
  | nil => rfl
  | cons a l ih =>
    cases hq : q a with
    | true =>
      rw [List.filter_cons_of_pos hq]
      cases hp : p a with
      | true => rw [List.find?_cons_of_pos _ hp, List.find?_cons_of_pos _ hp]
      | false => rw [List.find?_cons_of_neg _ (by simp [hp]), List.find?_cons_of_neg _ (by simp [hp]), ih]
    | false =>
      have hp : p a = false := by
        cases hpa : p a with
        | true => exact absurd (h a hpa) (by simp [hq])
        | false => rfl
      rw [List.filter_cons_of_neg (by simp [hq]), ih, List.find?_cons_of_neg _ (by simp [hp])]

/-- C7: the primary action is the first word of the summary's own
lower-cased whitespace-split word sequence that is an action word, else the
first extracted action, else absent; for the example summary it resolves to
`fix`, and the assembled generative name starts with `fix`. -/
theorem C7_primary_action :
    (∀ (summary : Str) (actions : List Str),
      determinePrimaryAction summary actions = specPrimaryAction summary actions) ∧
    (analyzeTicketContent (String.data
      "Fix user authentication validation in login API endpoint") none).primaryAction =
      some (String.data "fix") ∧
    String.data "fix" <+: generateConciseName (analyzeTicketContent (String.data
      "Fix user authentication validation in login API endpoint") none) := by
  refine ⟨?_, by decide, by decide⟩
  intro summary actions
  have hne : ∀ w ∈ ACTION_WORDS, (!w.isEmpty) = true := by decide
  have himp : ∀ w : Str, decide (w ∈ ACTION_WORDS) = true → (!w.isEmpty) = true :=
    fun w hw => hne w (by simpa using hw)
  rw [determinePrimaryAction.eq_def, specPrimaryAction.eq_def,
    ← filter_jsSplitWs_eq_wordsWs (lowerStr summary), find_filter_of_imp himp]
  cases (jsSplitWs (lowerStr summary)).find? (fun w => decide (w ∈ ACTION_WORDS)) with
  | some w => rfl
  | none => cases actions <;> rfl

/-! ### Stable descending sort by score -/

theorem insertByScore_cons_le {score : Str → Int} {a b : Str} (rest : List Str)
    (h : score b ≤ score a) :
    insertByScore score a (b :: rest) = a :: b :: rest := by
  rw [insertByScore.eq_def]
  simp [h]

theorem insertByScore_cons_gt {score : Str → Int} {a b : Str} (rest : List Str)
    (h : ¬ score b ≤ score a) :
    insertByScore score a (b :: rest) = b :: insertByScore score a rest := by
  rw [insertByScore.eq_def]
  simp [h]

theorem sortByScoreDesc_cons (score : Str → Int) (a : Str) (l : List Str) :
    sortByScoreDesc score (a :: l) = insertByScore score a (sortByScoreDesc score l) := rfl

theorem insertByScore_perm (score : Str → Int) (a : Str) (l : List Str) :
    List.Perm (insertByScore score a l) (a :: l) := by
  induction l with
  | nil => exact List.Perm.refl _
  | cons b rest ih =>
    by_cases h : score b ≤ score a
    · rw [insertByScore_cons_le rest h]
    · rw [insertByScore_cons_gt rest h]
      exact (List.Perm.cons b ih).trans (List.Perm.swap a b rest)

theorem sortByScoreDesc_perm (score : Str → Int) (l : List Str) :
    List.Perm (sortByScoreDesc score l) l := by
  induction l with
  | nil => exact List.Perm.refl _
  | cons a rest ih =>
    rw [sortByScoreDesc_cons]
    exact (insertByScore_perm score a _).trans (List.Perm.cons a ih)

theorem mem_insertByScore {score : Str → Int} {a x : Str} {l : List Str} :
    x ∈ insertByScore score a l ↔ x = a ∨ x ∈ l := by
  rw [(insertByScore_perm score a l).mem_iff, List.mem_cons]

theorem insertByScore_sorted {score : Str → Int} {l : List Str} (a : Str)
    (h : l.Pairwise (fun x y => score y ≤ score x)) :
    (insertByScore score a l).Pairwise (fun x y => score y ≤ score x) := by
  induction l with
  | nil => simp [insertByScore]
  | cons b rest ih =>
    rcases List.pairwise_cons.mp h with ⟨hb, hrest⟩
    by_cases hba : score b ≤ score a
    · rw [insertByScore_cons_le rest hba]
      refine List.pairwise_cons.mpr ⟨?_, h⟩
      intro x hx
      rcases List.mem_cons.mp hx with h1 | h1
      · subst h1; exact hba
      · exact le_trans (hb x h1) hba
    · rw [insertByScore_cons_gt rest hba]
      refine List.pairwise_cons.mpr ⟨?_, ih hrest⟩
      intro x hx
      rcases mem_insertByScore.mp hx with h1 | h1
      · subst h1; omega
      · exact hb x h1

theorem sortByScoreDesc_sorted (score : Str → Int) (l : List Str) :
    (sortByScoreDesc score l).Pairwise (fun x y => score y ≤ score x) := by
  induction l with
  | nil => simp [sortByScoreDesc]
  | cons a rest ih =>
    rw [sortByScoreDesc_cons]
    exact insertByScore_sorted a ih

theorem filter_score_insertByScore (score : Str → Int) (k : Int) (a : Str) (l : List Str) :
    (insertByScore score a l).filter (fun t => decide (score t = k)) =
      ((a :: l).filter (fun t => decide (score t = k))) := by
  induction l with
  | nil => rfl
  | cons b rest ih =>
    by_cases hba : score b ≤ score a
    · rw [insertByScore_cons_le rest hba]
    · rw [insertByScore_cons_gt rest hba]
      by_cases hpb : score b = k
      · have hpa : ¬ score a = k := by omega
        have h1 : (insertByScore score a rest).filter (fun t => decide (score t = k)) =
            rest.filter (fun t => decide (score t = k)) := by
          rw [ih, List.filter_cons_of_neg (by simpa using hpa)]
        rw [List.filter_cons_of_pos (by simpa using hpb), h1,
          List.filter_cons_of_neg (by simpa using hpa),
          List.filter_cons_of_pos (by simpa using hpb)]
      · rw [List.filter_cons_of_neg (by simpa using hpb), ih]
        by_cases hpa : score a = k
        · rw [List.filter_cons_of_pos (by simpa using hpa),
            List.filter_cons_of_pos (by simpa using hpa),
            List.filter_cons_of_neg (by simpa using hpb)]
        · rw [List.filter_cons_of_neg (by simpa using hpa),
            List.filter_cons_of_neg (by simpa using hpa),
            List.filter_cons_of_neg (by simpa using hpb)]

theorem filter_score_sortByScoreDesc (score : Str → Int) (k : Int) (l : List Str) :
    (sortByScoreDesc score l).filter (fun t => decide (score t = k)) =
      l.filter (fun t => decide (score t = k)) := by
  induction l with
  | nil => rfl
  | cons a rest ih =>
    rw [sortByScoreDesc_cons, filter_score_insertByScore]
    by_cases hpa : score a = k
    · rw [List.filter_cons_of_pos (by simpa using hpa),
        List.filter_cons_of_pos (by simpa using hpa), ih]
    · rw [List.filter_cons_of_neg (by simpa using hpa),
        List.filter_cons_of_neg (by simpa using hpa), ih]

/-- C6: each distinct token is scored base 1, +5 action, +4 technical,
+2 entity, +1 length above 6, -1 too-generic; `rankTokensByRelevance`
returns the distinct tokens (a permutation of the first-occurrence
deduplication), sorted descending by this score, with ties kept in
first-occurrence order. -/
theorem C6_rank_tokens (tokens : List Str) :
    (∀ t : Str, scoreToken (extractEntities tokens) t = specScore (extractEntities tokens) t) ∧
    List.Perm
      (rankTokensByRelevance tokens (extractActions tokens) (extractEntities tokens)
        (extractTechTerms tokens))
      (dedupFirst tokens) ∧
    (rankTokensByRelevance tokens (extractActions tokens) (extractEntities tokens)
        (extractTechTerms tokens)).Pairwise
      (fun a b => scoreToken (extractEntities tokens) b ≤ scoreToken (extractEntities tokens) a) ∧
    (∀ k : Int,
      (rankTokensByRelevance tokens (extractActions tokens) (extractEntities tokens)
          (extractTechTerms tokens)).filter
        (fun t => decide (scoreToken (extractEntities tokens) t = k)) =
      (dedupFirst tokens).filter
        (fun t => decide (scoreToken (extractEntities tokens) t = k))) := by
  refine ⟨?_, ?_, ?_, ?_⟩
  · intro t
    dsimp only [scoreToken, specScore]
    split_ifs <;> omega
  · exact sortByScoreDesc_perm _ _
  · exact sortByScoreDesc_sorted _ _
  · intro k
    exact filter_score_sortByScoreDesc _ k _

/-! ### Character-set analysis of the branch path -/

theorem replaceNonTokenChars_chars {s : Str} {c : Char}
    (hc : c ∈ replaceNonTokenChars s) : (isWordChar c || isWs c || c == '-') = true := by
  rw [replaceNonTokenChars] at hc
  rcases List.mem_map.mp hc with ⟨x, _, hx⟩
  by_cases h : (isWordChar x || isWs x || x == '-') = true
  · rw [← hx, if_pos h]
    exact h
  · rw [← hx, if_neg h]
    decide

theorem backfillSummaryChars_chars {s : Str} {c : Char}
    (hc : c ∈ backfillSummaryChars s) : (isWordChar c || isWs c) = true := by
  rw [backfillSummaryChars] at hc
  rcases List.mem_map.mp hc with ⟨x, _, hx⟩
  by_cases h : (isWordChar x || isWs x) = true
  · rw [← hx, if_pos h]
    exact h
  · rw [← hx, if_neg h]
    decide

theorem collapseRuns_chars {p : Char → Bool} {rep : Char} {s : Str} {c : Char}
    (hc : c ∈ collapseRuns p rep s) : c ∈ s ∨ c = rep := by
  induction s with
  | nil => simp [collapseRuns] at hc
  | cons a rest ih =>
    cases hpa : p a with
    | true =>
      cases rest with
      | nil =>
        rw [collapseRuns_cons_nil hpa, List.mem_singleton] at hc
        exact Or.inr hc
      | cons b v2 =>
        cases hpb : p b with
        | true =>
          rw [collapseRuns_cons_pp v2 hpa hpb] at hc
          rcases ih hc with h | h
          · exact Or.inl (List.mem_cons_of_mem _ h)
          · exact Or.inr h
        | false =>
          rw [collapseRuns_cons_pn v2 hpa hpb] at hc
          rcases List.mem_cons.mp hc with h | h
          · exact Or.inr h
          · rcases ih h with h2 | h2
            · exact Or.inl (List.mem_cons_of_mem _ h2)
            · exact Or.inr h2
    | false =>
      rw [collapseRuns_cons_neg rest hpa] at hc
      rcases List.mem_cons.mp hc with h | h
      · exact Or.inl (h ▸ List.mem_cons_self a rest)
      · rcases ih h with h2 | h2
        · exact Or.inl (List.mem_cons_of_mem _ h2)
        · exact Or.inr h2

theorem stripEdges_subset {p : Char → Bool} {s : Str} {c : Char}
    (hc : c ∈ stripEdges p s) : c ∈ s := by
  rw [stripEdges, List.mem_reverse] at hc
  have h1 : c ∈ (s.dropWhile p).reverse := (List.dropWhile_sublist _).mem hc
  rw [List.mem_reverse] at h1
  exact (List.dropWhile_sublist _).mem h1

theorem jsSplitWs_chars {s t : Str} (ht : t ∈ jsSplitWs s) {c : Char} (hc : c ∈ t) :
    isWs c = false ∧ c ∈ s := by
  induction s generalizing t with
  | nil =>
    simp only [jsSplitWs, List.mem_singleton] at ht
    subst ht
    simp at hc
  | cons a rest ih =>
    cases ha : isWs a with
    | true =>
      cases rest with
      | nil =>
        rw [jsSplitWs_cons_ws_nil ha] at ht
        have : t = [] := by
          rcases List.mem_cons.mp ht with h | h
          · exact h
          · simpa using h
        subst this
        simp at hc
      | cons b v2 =>
        cases hb : isWs b with
        | true =>
          rw [jsSplitWs_cons_ws_ws v2 ha hb] at ht
          rcases ih ht hc with ⟨h1, h2⟩
          exact ⟨h1, List.mem_cons_of_mem _ h2⟩
        | false =>
          rw [jsSplitWs_cons_ws_nws v2 ha hb] at ht
          rcases List.mem_cons.mp ht with h | h
          · subst h; simp at hc
          · rcases ih h hc with ⟨h1, h2⟩
            exact ⟨h1, List.mem_cons_of_mem _ h2⟩
    | false =>
      rcases hsp : jsSplitWs rest with _ | ⟨hd, tl⟩
      · exact absurd hsp (jsSplitWs_ne_nil rest)
      · have hun : jsSplitWs (a :: rest) = (a :: hd) :: tl := by
          rw [jsSplitWs_cons_nws rest ha, hsp]
        rw [hun] at ht
        rcases List.mem_cons.mp ht with h | h
        · subst h
          rcases List.mem_cons.mp hc with h2 | h2
          · rw [h2]
            exact ⟨ha, List.mem_cons_self a rest⟩
          · rcases ih (hsp ▸ List.mem_cons_self hd tl) h2 with ⟨h3, h4⟩
            exact ⟨h3, List.mem_cons_of_mem _ h4⟩
        · rcases ih (hsp ▸ List.mem_cons_of_mem hd h) hc with ⟨h3, h4⟩
          exact ⟨h3, List.mem_cons_of_mem _ h4⟩

theorem isWordChar_good {c : Char} (h : isWordChar c = true) : goodChar c = true := by
  simp only [isWordChar, Bool.or_eq_true] at h
  rcases h with (h2 | h2) | h2 <;> simp [goodChar, h2]

theorem tokenizeText_chars {text : Str} {t : Str} (ht : t ∈ tokenizeText text)
    {c : Char} (hc : c ∈ t) : goodChar c = true := by
  rw [tokenizeText] at ht
  have ht2 := List.mem_of_mem_filter ht
  rcases jsSplitWs_chars ht2 hc with ⟨hnws, hmem⟩
  rw [jsTrim] at hmem
  have hmem2 := stripEdges_subset hmem
  rcases collapseRuns_chars hmem2 with h | h
  · have h3 := replaceNonTokenChars_chars h
    simp only [Bool.or_eq_true] at h3
    rcases h3 with (h4 | h4) | h4
    · exact isWordChar_good h4
    · rw [hnws] at h4; simp at h4
    · simp only [beq_iff_eq] at h4
      subst h4
      decide
  · subst h
    exact absurd hnws (by decide)

theorem mem_dedupFirstAux {x : Str} : ∀ (l seen : List Str),
    x ∈ dedupFirstAux seen l → x ∈ l := by
  intro l
  induction l with
  | nil => intro seen hx; simp [dedupFirstAux] at hx
  | cons a rest ih =>
    intro seen hx
    by_cases hmem : a ∈ seen
    · rw [show dedupFirstAux seen (a :: rest) = dedupFirstAux seen rest from by
        rw [dedupFirstAux.eq_def]; simp [hmem]] at hx
      exact List.mem_cons_of_mem _ (ih seen hx)
    · rw [show dedupFirstAux seen (a :: rest) = a :: dedupFirstAux (a :: seen) rest from by
        rw [dedupFirstAux.eq_def]; simp [hmem]] at hx
      rcases List.mem_cons.mp hx with h | h
      · exact h ▸ List.mem_cons_self a rest
      · exact List.mem_cons_of_mem _ (ih (a :: seen) h)

theorem mem_dedupFirst {x : Str} {l : List Str} (hx : x ∈ dedupFirst l) : x ∈ l :=
  mem_dedupFirstAux l [] hx

theorem mem_rankTokens {tokens a e te : List Str} {x : Str}
    (hx : x ∈ rankTokensByRelevance tokens a e te) : x ∈ tokens := by
  rw [rankTokensByRelevance] at hx
  exact mem_dedupFirst ((sortByScoreDesc_perm _ _).mem_iff.mp hx)

theorem determinePrimaryAction_none (summary : Str) (actions : List Str)
    (hfind : (jsSplitWs (lowerStr summary)).find?
      (fun w => decide (w ∈ ACTION_WORDS)) = none) :
    determinePrimaryAction summary actions = actions.head? := by
  rw [determinePrimaryAction.eq_def, hfind]
  cases actions <;> rfl

theorem primaryAction_chars {summary : Str} {actions : List Str} {w : Str}
    (hw : determinePrimaryAction summary actions = some w) :
    w ∈ ACTION_WORDS ∨ w ∈ actions := by
  rcases hfind : (jsSplitWs (lowerStr summary)).find?
      (fun w => decide (w ∈ ACTION_WORDS)) with _ | w2
  · rw [determinePrimaryAction_none summary actions hfind] at hw
    cases actions with
    | nil => simp at hw
    | cons a rest =>
      rw [show (a :: rest).head? = some a from rfl, Option.some.injEq] at hw
      refine Or.inr ?_
      rw [← hw]
      exact List.mem_cons_self a rest
  · have h1 : determinePrimaryAction summary actions = some w2 := by
      rw [determinePrimaryAction.eq_def, hfind]
    rw [h1, Option.some.injEq] at hw
    refine Or.inl ?_
    rw [← hw]
    simpa using List.find?_some hfind

theorem addTokensLoop_cons (parts : List Str) (tok : Str) (rest : List Str) :
    addTokensLoop parts (tok :: rest) =
      if tok ∈ parts then addTokensLoop parts rest
      else if 4 ≤ (parts ++ [tok]).length ∨ 30 ≤ (joinWith ['-'] (parts ++ [tok])).length
        then parts ++ [tok]
      else addTokensLoop (parts ++ [tok]) rest := rfl

theorem addTokensLoop_mem {x : Str} : ∀ (toks parts : List Str),
    x ∈ addTokensLoop parts toks → x ∈ parts ∨ x ∈ toks := by
  intro toks
  induction toks with
  | nil => intro parts hx; exact Or.inl hx
  | cons tok rest ih =>
    intro parts hx
    rw [addTokensLoop_cons] at hx
    by_cases hmem : tok ∈ parts
    · rw [if_pos hmem] at hx
      rcases ih parts hx with h | h
      · exact Or.inl h
      · exact Or.inr (List.mem_cons_of_mem _ h)
    · rw [if_neg hmem] at hx
      by_cases hstop : 4 ≤ (parts ++ [tok]).length ∨
          30 ≤ (joinWith ['-'] (parts ++ [tok])).length
      · rw [if_pos hstop] at hx
        rcases List.mem_append.mp hx with h | h
        · exact Or.inl h
        · exact Or.inr (List.mem_cons.mpr (Or.inl (List.mem_singleton.mp h)))
      · rw [if_neg hstop] at hx
        rcases ih (parts ++ [tok]) hx with h | h
        · rcases List.mem_append.mp h with h2 | h2
          · exact Or.inl h2
          · exact Or.inr (List.mem_cons.mpr (Or.inl (List.mem_singleton.mp h2)))
        · exact Or.inr (List.mem_cons_of_mem _ h)

theorem backfillWords_chars {summary : Str} {used : List Str} {w : Str}
    (hw : w ∈ backfillWords summary used) {c : Char} (hc : c ∈ w) : goodChar c = true := by
  rw [backfillWords] at hw
  have h1 := List.mem_of_mem_take hw
  have h2 := List.mem_of_mem_filter h1
  rcases jsSplitWs_chars h2 hc with ⟨hnws, hmem⟩
  have h3 := backfillSummaryChars_chars hmem
  simp only [Bool.or_eq_true] at h3
  rcases h3 with h4 | h4
  · exact isWordChar_good h4
  · rw [hnws] at h4; simp at h4

theorem analyze_primaryAction (s : Str) (d : Option Str) :
    (analyzeTicketContent s d).primaryAction =
      determinePrimaryAction s (extractActions (tokenizeText (s ++ ' ' :: d.getD []))) := rfl

theorem analyze_rankedTokens (s : Str) (d : Option Str) :
    (analyzeTicketContent s d).rankedTokens =
      rankTokensByRelevance (tokenizeText (s ++ ' ' :: d.getD []))
        (extractActions (tokenizeText (s ++ ' ' :: d.getD [])))
        (extractEntities (tokenizeText (s ++ ' ' :: d.getD [])))
        (extractTechTerms (tokenizeText (s ++ ' ' :: d.getD []))) := rfl

theorem analyze_originalSummary (s : Str) (d : Option Str) :
    (analyzeTicketContent s d).originalSummary = s := rfl

theorem loopParts_chars (summary : Str) (description : Option Str) {y : Str}
    (hy : y ∈ loopParts (analyzeTicketContent summary description))
    {c : Char} (hc : c ∈ y) : goodChar c = true := by
  rw [loopParts] at hy
  rcases addTokensLoop_mem _ _ hy with h | h
  · rw [initialParts.eq_def] at h
    rcases hpa : (analyzeTicketContent summary description).primaryAction with _ | w
    · rw [hpa] at h
      simp at h
    · rw [hpa] at h
      simp only [List.mem_singleton] at h
      subst h
      rw [analyze_primaryAction] at hpa
      rcases primaryAction_chars hpa with hact | hmemact
      · have hgood : ∀ w2 ∈ ACTION_WORDS, ∀ c3 ∈ w2, goodChar c3 = true := by decide
        exact hgood y hact c hc
      · exact tokenizeText_chars (List.mem_of_mem_filter hmemact) hc
  · rw [analyze_rankedTokens] at h
    exact tokenizeText_chars (mem_rankTokens h) hc

theorem assembledParts_chars (summary : Str) (description : Option Str) {x : Str}
    (hx : x ∈ assembledParts (analyzeTicketContent summary description))
    {c : Char} (hc : c ∈ x) : goodChar c = true := by
  rw [assembledParts] at hx
  split at hx
  · rcases List.mem_append.mp hx with h | h
    · exact loopParts_chars summary description h hc
    · rw [analyze_originalSummary] at h
      exact backfillWords_chars h hc
  · exact loopParts_chars summary description hx hc

theorem cleanedName_chars (summary : Str) (description : Option Str) {c : Char}
    (hc : c ∈ cleanedName (analyzeTicketContent summary description)) : goodChar c = true := by
  rw [cleanedName] at hc
  have h1 := List.mem_of_mem_take hc
  have h2 := stripEdges_subset h1
  rcases collapseRuns_chars h2 with h | h
  · rcases mem_joinWith h with ⟨t, ht, hct⟩ | hsep
    · exact assembledParts_chars summary description ht hct
    · rw [List.mem_singleton] at hsep
      subst hsep
      decide
  · subst h
    decide

theorem generateConciseName_chars (summary : Str) (description : Option Str) {c : Char}
    (hc : c ∈ generateConciseName (analyzeTicketContent summary description)) :
    goodChar c = true := by
  rw [generateConciseName] at hc
  split at hc
  · have hupd : ∀ c2 ∈ String.data "update", goodChar c2 = true := by decide
    exact hupd c hc
  · exact cleanedName_chars summary description hc

theorem ensureValidLength_chars {s : Str} {c : Char} (hc : c ∈ ensureValidLength s) :
    c ∈ s ∨ c = '-' ∨ c = '/' := by
  rw [ensureValidLength] at hc
  split at hc
  · exact Or.inl hc
  · rcases List.mem_append.mp hc with h | h
    · rcases List.mem_append.mp h with h1 | h1
      · rw [evlPre] at h1
        split at h1
        · rcases List.mem_append.mp h1 with h3 | h3
          · rcases mem_joinWith h3 with ⟨t, ht, hct⟩ | hsep
            · have hmem : t ∈ evlParts s := (List.dropLast_sublist _).mem ht
              exact Or.inl (mem_of_mem_splitChar hmem hct)
            · rw [List.mem_singleton] at hsep
              exact Or.inr (Or.inr hsep)
          · rw [List.mem_singleton] at h3
            exact Or.inr (Or.inr h3)
        · simp at h1
      · exact Or.inl (mem_of_mem_splitChar (evlActual_mem s)
          (mem_of_mem_splitChar (evlTicket_mem s) h1))
    · rcases List.mem_cons.mp h with h3 | h3
      · exact Or.inr (Or.inl h3)
      · rcases evlGen_chars s (List.mem_of_mem_take h3) with h5 | h5
        · exact Or.inl (mem_of_mem_splitChar (evlActual_mem s) h5)
        · exact Or.inr (Or.inl h5)

theorem applyPre_some (p b : Str) :
    applyPre (some p) b = if p.isEmpty then b else p ++ '/' :: b := rfl

theorem applyPre_ne_nil {pre : Option Str} {b : Str} (h : b ≠ []) : applyPre pre b ≠ [] := by
  cases pre with
  | none => exact h
  | some p =>
    rw [applyPre_some]
    split
    · exact h
    · simp

theorem ensureValidLength_ne_nil {s : Str} (h : s ≠ []) : ensureValidLength s ≠ [] := by
  rw [ensureValidLength]
  split
  · exact h
  · simp

/-- C3 (counterexample): the branch path applies no sanitization: a ticket
id beginning with a dot flows through to the slug, which then starts with
`.` and contains a character outside `[A-Za-z0-9\-_/]`. -/
theorem C3_charset_counterexample :
    ['.'] <+: generateFallback (String.data ".bad") (String.data "Fix bug") none none ∧
    ¬ (∀ c ∈ generateFallback (String.data ".bad") (String.data "Fix bug") none none,
        goodChar c = true) := by
  constructor
  · exact ⟨String.data "bad-fix-bug", by decide⟩
  · intro h
    exact absurd (h '.' (by decide)) (by decide)

/-- C3 (amended): when the ticket id and the optional prefix consist only of
characters from `[A-Za-z0-9\-_/]`, the slug returned by the deterministic
branch path is non-empty, consists only of such characters, does not start
with `.`, and does not end with `.lock`; without that precondition the
invariant can fail, since the branch path applies no sanitization. -/
theorem C3_charset_amended (issueKey summary : Str) (description pre : Option Str)
    (hkey : ∀ c ∈ issueKey, goodChar c = true)
    (hpre : ∀ p, pre = some p → ∀ c ∈ p, goodChar c = true) :
    generateFallback issueKey summary description pre ≠ [] ∧
    (∀ c ∈ generateFallback issueKey summary description pre, goodChar c = true) ∧
    ¬ (['.'] <+: generateFallback issueKey summary description pre) ∧
    ¬ (String.data ".lock" <:+ generateFallback issueKey summary description pre) := by
  have hbase : ∀ c ∈ issueKey ++
      '-' :: generateConciseName (analyzeTicketContent summary description),
      goodChar c = true := by
    intro c hc
    rcases List.mem_append.mp hc with h | h
    · exact hkey c h
    · rcases List.mem_cons.mp h with h2 | h2
      · subst h2; decide
      · exact generateConciseName_chars summary description h2
  have hcomp : ∀ c ∈ applyPre pre (issueKey ++
      '-' :: generateConciseName (analyzeTicketContent summary description)),
      goodChar c = true := by
    intro c hc
    cases pre with
    | none => exact hbase c hc
    | some p =>
      rw [applyPre_some] at hc
      split at hc
      · exact hbase c hc
      · rcases List.mem_append.mp hc with h | h
        · exact hpre p rfl c h
        · rcases List.mem_cons.mp h with h2 | h2
          · subst h2; decide
          · exact hbase c h2
  have hchars : ∀ c ∈ generateFallback issueKey summary description pre,
      goodChar c = true := by
    intro c hc
    rw [generateFallback] at hc
    rcases ensureValidLength_chars hc with h | h | h
    · exact hcomp c h
    · subst h; decide
    · subst h; decide
  have hne : generateFallback issueKey summary description pre ≠ [] := by
    rw [generateFallback]
    exact ensureValidLength_ne_nil (applyPre_ne_nil (by simp))
  refine ⟨hne, hchars, ?_, ?_⟩
  · rintro ⟨t2, ht2⟩
    have hm : '.' ∈ generateFallback issueKey summary description pre := by
      rw [← ht2]; simp
    exact absurd (hchars '.' hm) (by decide)
  · rintro ⟨t2, ht2⟩
    have hm : '.' ∈ generateFallback issueKey summary description pre := by
      rw [← ht2]
      exact List.mem_append.mpr (Or.inr (by decide))
    exact absurd (hchars '.' hm) (by decide)

/-- C3 (amended, witness): a concrete well-formed ticket id and prefix give
a slug that satisfies the full character-set invariant. -/
theorem C3_charset_amended_witness :
    generateFallback (String.data "EH-1234") (String.data "Fix user authentication bug")
        none (some (String.data "feature")) ≠ [] ∧
    (∀ c ∈ generateFallback (String.data "EH-1234")
        (String.data "Fix user authentication bug") none (some (String.data "feature")),
      goodChar c = true) ∧
    ¬ (['.'] <+: generateFallback (String.data "EH-1234")
        (String.data "Fix user authentication bug") none (some (String.data "feature"))) ∧
    ¬ (String.data ".lock" <:+ generateFallback (String.data "EH-1234")
        (String.data "Fix user authentication bug") none (some (String.data "feature"))) :=
  C3_charset_amended (String.data "EH-1234") (String.data "Fix user authentication bug")
    none (some (String.data "feature")) (by decide)
    (by intro p hp; cases hp; decide)

end JiraToBranch
